import Mathlib

/-!
Shallow embedding of `src/mem_store/strings.rs` from LocustDB: the string
column encoding layer (raw zero-terminated packing and dictionary encoding),
together with proofs of the specification's claims about it.

Modelling conventions:
* a Rust `String` is its UTF-8 byte sequence, modelled as `List Nat`
  (each element a byte value);
* machine integers are `Nat` (`u16::MAX = 65535` appears explicitly);
* a Rust panic (failed `assert!`, out-of-bounds index, `unwrap` of `None`,
  missing `HashMap` key, or the out-of-bounds read in the unterminated-scan
  case of `StringPackerIterator::next`) is modelled by an `Option` result
  being `none`;
* iterators over vectors are modelled by structural recursion over lists;
  `Iterator::zip` stops at the shorter side, with the left side pulled first.
-/

namespace LocustDB

/-- A Rust `String` as its byte sequence. -/
abbrev Str := List Nat

/-- `struct StringPacker { data: Vec<u8> }`. -/
structure StringPacker where
  data : List Nat
deriving DecidableEq

/-- `StringPacker::new()`. -/
def StringPacker.new : StringPacker := ⟨[]⟩

/-- `StringPacker::push`: append the string's bytes, then a 0 terminator. -/
def StringPacker.push (sp : StringPacker) (s : Str) : StringPacker :=
  ⟨sp.data ++ s ++ [0]⟩

/-- `StringPacker::from_strings`: push each row, a `None` row as `""`.
(`shrink_to_fit` does not change the contents and is omitted.) -/
def StringPacker.from_strings (strings : List (Option Str)) : StringPacker :=
  strings.foldl (fun sp o => sp.push (o.getD [])) StringPacker.new

/-- The loop condition of the terminator scan: `self.data[index] != 0`. -/
def nonTerm (b : Nat) : Bool := b ≠ 0

/-- `StringPackerIterator::next`, acting on the suffix `data[curr_index..]`.
Result `none` models the panic when the scan `while self.data[index] != 0`
runs past the end of the buffer; `some none` is an exhausted iterator;
`some (some (s, rest))` yields the string `s` (the bytes before the first 0)
and the suffix after the terminator. -/
def stringPackerNext (remaining : List Nat) : Option (Option (Str × List Nat)) :=
  match remaining with
  | [] => some none
  | _ :: _ =>
    match remaining.dropWhile nonTerm with
    | [] => none
    | _ :: rest => some (some (remaining.takeWhile nonTerm, rest))

/-- `<StringPacker as ColumnData>::collect_decoded`, as the repeated
application of `stringPackerNext` starting from the full buffer. -/
def packerCollect (remaining : List Nat) : Option (List Str) :=
  match h : stringPackerNext remaining with
  | none => none
  | some none => some []
  | some (some (s, rest)) => (packerCollect rest).map (fun ss => s :: ss)
termination_by remaining.length
decreasing_by
  unfold stringPackerNext at h
  cases remaining with
  | nil => simp at h
  | cons a l =>
    revert h
    cases hd : (a :: l).dropWhile nonTerm with
    | nil => intro h; simp at h
    | cons z r2 =>
      intro h
      simp only [Option.some.injEq, Prod.mk.injEq] at h
      obtain ⟨-, h2⟩ := h
      subst h2
      have hlen : ((a :: l).dropWhile nonTerm).length ≤ (a :: l).length :=
        (List.dropWhile_sublist _).length_le
      rw [hd] at hlen
      simp only [List.length_cons] at hlen ⊢
      omega

/-- `<StringPacker as ColumnData>::filter_decode`: zip the string iterator
with the mask bits, keeping selected strings.  The string iterator is pulled
first (as `Iterator::zip` does), so an exhausted mask still performs one more
`next` call on the string side. -/
def packerFilter (remaining : List Nat) (mask : List Bool) : Option (List Str) :=
  match h : stringPackerNext remaining with
  | none => none
  | some none => some []
  | some (some (s, rest)) =>
    match mask with
    | [] => some []
    | b :: ms => (packerFilter rest ms).map (fun r => if b then s :: r else r)
termination_by remaining.length
decreasing_by
  unfold stringPackerNext at h
  cases remaining with
  | nil => simp at h
  | cons a l =>
    revert h
    cases hd : (a :: l).dropWhile nonTerm with
    | nil => intro h; simp at h
    | cons z r2 =>
      intro h
      simp only [Option.some.injEq, Prod.mk.injEq] at h
      obtain ⟨-, h2⟩ := h
      subst h2
      have hlen : ((a :: l).dropWhile nonTerm).length ≤ (a :: l).length :=
        (List.dropWhile_sublist _).length_le
      rw [hd] at hlen
      simp only [List.length_cons] at hlen ⊢
      omega

/-- Decoded view of a packed column (`none` = a decode panic). -/
def StringPacker.collect_decoded (sp : StringPacker) : Option (List Str) :=
  packerCollect sp.data

/-- Filtered decode of a packed column (`none` = a decode panic). -/
def StringPacker.filter_decode (sp : StringPacker) (mask : List Bool) :
    Option (List Str) :=
  packerFilter sp.data mask

/-- Structural byte-level restatement of `packerCollect`, convenient for
induction and for evaluation on concrete buffers (proved equal to
`packerCollect` below). -/
def byteCollect : List Nat → Option (List Str)
  | [] => some []
  | 0 :: rest => (byteCollect rest).map (fun ss => [] :: ss)
  | (b+1) :: rest =>
    match byteCollect rest with
    | some (x :: xs) => some (((b+1) :: x) :: xs)
    | _ => none

/-- The segments of a byte string as cut at its 0 bytes (a 0-free string is
one segment; each 0 byte ends a segment). -/
def splitSegs : List Nat → List Str
  | [] => [[]]
  | 0 :: rest => [] :: splitSegs rest
  | (b+1) :: rest =>
    match splitSegs rest with
    | x :: xs => ((b+1) :: x) :: xs
    | [] => [[b+1]]

/-- The byte buffer produced by `StringPacker::from_strings`: each row's
bytes (empty for a null row) followed by a 0 terminator. -/
def packData : List (Option Str) → List Nat
  | [] => []
  | o :: rest => (o.getD []) ++ 0 :: packData rest

/-- The buffer invariant maintained by `StringPacker`: empty, or ending in
the 0 terminator written by the last `push`. -/
def bufferEndsZero (data : List Nat) : Prop :=
  data = [] ∨ ∃ l, data = l ++ [0]

/-- The `iter.zip(mask)` + `if selected` loop shape shared by
`filter_decode` and `filter_encoded`: keep the elements whose mask bit is
set, stopping at the shorter of the two sequences. -/
def maskFilter {α : Type} : List α → List Bool → List α
  | [], _ => []
  | _, [] => []
  | x :: xs, b :: bs => if b then x :: maskFilter xs bs else maskFilter xs bs

/-- Specification-side statement of filtering: the subsequence of `xs` at
exactly the set-bit positions of `mask`, in order. -/
def maskSubseq {α : Type} (xs : List α) (mask : List Bool) : List α :=
  ((xs.zip mask).filter (fun p => p.2)).map (fun p => p.1)

/-- `struct DictEncodedStrings { mapping: Vec<Option<String>>,
encoded_values: Vec<u16> }`. -/
structure DictEncodedStrings where
  mapping : List (Option Str)
  encoded_values : List Nat
deriving DecidableEq

/-- `u16::MAX as usize`, the bound checked by the `assert!` in
`DictEncodedStrings::from_strings`. -/
def u16MAX : Nat := 65535

/-- The `reverse_mapping` lookup `reverse_mapping[&value]`: the index paired
with `value` when the mapping was zipped with `0..`.  `none` models the
panicking `HashMap` index operation when the key is absent.  (The source
builds the map from a `HashSet`, so the mapping has no duplicate entries and
first-match agrees with the map.) -/
def idxOf (v : Option Str) : List (Option Str) → Option Nat
  | [] => none
  | a :: as => if a = v then some 0 else (idxOf v as).map (· + 1)

/-- Sequence a fallible map over a list: `none` as soon as any element
fails (the panic of the failing iteration aborts the whole collect). -/
def optionMapList {α β : Type} (f : α → Option β) : List α → Option (List β)
  | [] => some []
  | a :: as =>
    match f a, optionMapList f as with
    | some b, some bs => some (b :: bs)
    | _, _ => none

/-- `DictEncodedStrings::from_strings`.  The `unique_values` set is passed as
the list of its entries in iteration order (a `HashSet` has no duplicate
entries).  `none` models a panic: either the failed
`assert!(unique_values.len() <= u16::MAX as usize)`, or a row value absent
from `reverse_mapping`. -/
def DictEncodedStrings.from_strings (strings : List (Option Str))
    (uniqueList : List (Option Str)) : Option DictEncodedStrings :=
  if uniqueList.length ≤ u16MAX then
    match optionMapList (fun o => idxOf o uniqueList) strings with
    | some enc => some { mapping := uniqueList, encoded_values := enc }
    | none => none
  else none

/-- `self.mapping[i].as_ref().unwrap()`: `none` models the panic from an
out-of-bounds index or from unwrapping a null dictionary entry. -/
def DictEncodedStrings.lookupEntry (d : DictEncodedStrings) (i : Nat) :
    Option Str :=
  match d.mapping[i]? with
  | some (some s) => some s
  | _ => none

/-- `<DictEncodedStrings as PointCodec<u16>>::decode`. -/
def DictEncodedStrings.decode (d : DictEncodedStrings) (data : List Nat) :
    Option (List Str) :=
  optionMapList (fun i => d.lookupEntry i) data

/-- `<DictEncodedStrings as ColumnData>::collect_decoded`:
`self.decode(&self.encoded_values)`. -/
def DictEncodedStrings.collect_decoded (d : DictEncodedStrings) :
    Option (List Str) :=
  d.decode d.encoded_values

/-- The loop of `<DictEncodedStrings as ColumnData>::filter_decode`: zip the
encoded values with the mask and unwrap the dictionary entry of each
selected index (only selected indices are looked up). -/
def dictFilterDecodeGo (d : DictEncodedStrings) :
    List Nat → List Bool → Option (List Str)
  | [], _ => some []
  | _, [] => some []
  | i :: is, b :: bs =>
    if b then
      match d.lookupEntry i, dictFilterDecodeGo d is bs with
      | some s, some r => some (s :: r)
      | _, _ => none
    else dictFilterDecodeGo d is bs

/-- `<DictEncodedStrings as ColumnData>::filter_decode`. -/
def DictEncodedStrings.filter_decode (d : DictEncodedStrings)
    (mask : List Bool) : Option (List Str) :=
  dictFilterDecodeGo d d.encoded_values mask

/-- `<DictEncodedStrings as ColumnCodec>::get_encoded`: the raw index array
(the codec reference back to `self` is implicit in the Lean model, where the
decode authority is `DictEncodedStrings.decode` on the same value). -/
def DictEncodedStrings.get_encoded (d : DictEncodedStrings) : List Nat :=
  d.encoded_values

/-- `<DictEncodedStrings as ColumnCodec>::filter_encoded`: the index array
restricted by the mask. -/
def DictEncodedStrings.filter_encoded (d : DictEncodedStrings)
    (mask : List Bool) : List Nat :=
  maskFilter d.encoded_values mask

/-- `<DictEncodedStrings as PointCodec<u16>>::to_raw`: the dictionary entry
for one index, boxed as `RawVal::Str` (the box is omitted; `none` models the
`unwrap` panic). -/
def DictEncodedStrings.to_raw (d : DictEncodedStrings) (elem : Nat) :
    Option Str :=
  d.lookupEntry elem

/-- `pub const MAX_UNIQUE_STRINGS: usize = 10000;`. -/
def MAX_UNIQUE_STRINGS : Nat := 10000

/-- Modelled from the spec: `UniqueValues` (from `mem_store::column_builder`,
whose source is not part of this repository snapshot) is the cardinality
analysis handed to the builder; per the spec it either reports the
unique-value set (bounded by the configured ceiling) or signals that no
bounded set is available.  It is carried here as that optional list of
entries. -/
structure UniqueValues where
  values : Option (List (Option Str))

/-- Modelled from the spec: `UniqueValues::get_values`, returning the
unique-value set when the analysis kept one. -/
def UniqueValues.get_values (u : UniqueValues) : Option (List (Option Str)) :=
  u.values

/-- Modelled from the spec: the contract the upstream cardinality analysis
guarantees for the row sequence it analysed — a reported set has at most
`MAX_UNIQUE_STRINGS` entries, has no duplicate entries, and contains every
row value. -/
def UniqueValues.wellFormed (u : UniqueValues)
    (values : List (Option Str)) : Prop :=
  ∀ l, u.values = some l →
    l.length ≤ MAX_UNIQUE_STRINGS ∧ ∀ v ∈ values, v ∈ l

/-- The two column representations `build_string_column` can box. -/
inductive StringColumn where
  | dict : DictEncodedStrings → StringColumn
  | packed : StringPacker → StringColumn
deriving DecidableEq

/-- `build_string_column`: dictionary-encode when the cardinality analysis
kept a bounded unique-value set, else raw-pack.  `none` models a panic inside
`DictEncodedStrings::from_strings`. -/
def build_string_column (values : List (Option Str))
    (unique_values : UniqueValues) : Option StringColumn :=
  match unique_values.get_values with
  | some u =>
    match DictEncodedStrings.from_strings values u with
    | some d => some (StringColumn.dict d)
    | none => none
  | none => some (StringColumn.packed (StringPacker.from_strings values))

/-! ## Helper lemmas: the raw packer -/

theorem nonTerm_zero : nonTerm 0 = false := rfl

theorem nonTerm_pos {a : Nat} (ha : a ≠ 0) : nonTerm a = true := by
  simp [nonTerm, ha]

theorem stringPackerNext_nil : stringPackerNext [] = some none := rfl

theorem stringPackerNext_cons_zero (rest : List Nat) :
    stringPackerNext (0 :: rest) = some (some ([], rest)) := by
  simp [stringPackerNext, List.dropWhile_cons, List.takeWhile_cons, nonTerm_zero]

theorem stringPackerNext_cons_pos {a : Nat} (ha : a ≠ 0) (l : List Nat) :
    stringPackerNext (a :: l) =
      match stringPackerNext l with
      | some (some (s, r2)) => some (some (a :: s, r2))
      | _ => none := by
  cases l with
  | nil =>
    simp [stringPackerNext, List.dropWhile_cons, List.takeWhile_cons, nonTerm_pos ha]
  | cons c l2 =>
    cases hd : (c :: l2).dropWhile nonTerm with
    | nil =>
      simp [stringPackerNext, List.dropWhile_cons, nonTerm_pos ha, hd]
    | cons z r2 =>
      simp [stringPackerNext, List.dropWhile_cons, List.takeWhile_cons, nonTerm_pos ha, hd]

theorem stringPackerNext_done_iff {l : List Nat} :
    stringPackerNext l = some none ↔ l = [] := by
  cases l with
  | nil => simp [stringPackerNext_nil]
  | cons a rest =>
    unfold stringPackerNext
    cases hd : (a :: rest).dropWhile nonTerm <;> simp

theorem stringPackerNext_rest_length {remaining rest : List Nat} {s : Str}
    (h : stringPackerNext remaining = some (some (s, rest))) :
    rest.length < remaining.length := by
  unfold stringPackerNext at h
  cases remaining with
  | nil => simp at h
  | cons a l =>
    revert h
    cases hd : (a :: l).dropWhile nonTerm with
    | nil => intro h; simp at h
    | cons z r2 =>
      intro h
      simp only [Option.some.injEq, Prod.mk.injEq] at h
      obtain ⟨-, h2⟩ := h
      subst h2
      have hlen : ((a :: l).dropWhile nonTerm).length ≤ (a :: l).length :=
        (List.dropWhile_sublist _).length_le
      rw [hd] at hlen
      simp only [List.length_cons] at hlen ⊢
      omega

theorem packerCollect_nil : packerCollect [] = some [] := by
  rw [packerCollect]; rfl

theorem packerCollect_panic {remaining : List Nat}
    (h : stringPackerNext remaining = none) : packerCollect remaining = none := by
  rw [packerCollect]
  split
  · rfl
  · rename_i heq; rw [h] at heq; exact absurd heq (by simp)
  · rename_i heq; rw [h] at heq; exact absurd heq (by simp)

theorem packerCollect_step {remaining rest : List Nat} {s : Str}
    (h : stringPackerNext remaining = some (some (s, rest))) :
    packerCollect remaining = (packerCollect rest).map (fun ss => s :: ss) := by
  rw [packerCollect]
  split
  · rename_i heq; rw [h] at heq; exact absurd heq (by simp)
  · rename_i heq; rw [h] at heq; exact absurd heq (by simp)
  · rename_i s2 rest2 heq
    rw [h] at heq
    simp only [Option.some.injEq, Prod.mk.injEq] at heq
    obtain ⟨hs, hr⟩ := heq
    rw [hs, hr]

theorem packerFilter_panic {remaining : List Nat} {mask : List Bool}
    (h : stringPackerNext remaining = none) : packerFilter remaining mask = none := by
  rw [packerFilter]
  split
  · rfl
  · rename_i heq; rw [h] at heq; exact absurd heq (by simp)
  · rename_i heq; rw [h] at heq; exact absurd heq (by simp)

theorem packerFilter_done {remaining : List Nat} {mask : List Bool}
    (h : stringPackerNext remaining = some none) :
    packerFilter remaining mask = some [] := by
  rw [packerFilter]
  split
  · rename_i heq; rw [h] at heq; exact absurd heq (by simp)
  · rfl
  · rename_i heq; rw [h] at heq; exact absurd heq (by simp)

theorem packerFilter_step {remaining rest : List Nat} {s : Str}
    (h : stringPackerNext remaining = some (some (s, rest))) (mask : List Bool) :
    packerFilter remaining mask =
      match mask with
      | [] => some []
      | b :: ms => (packerFilter rest ms).map (fun r => if b then s :: r else r) := by
  rw [packerFilter]
  split
  · rename_i heq; rw [h] at heq; exact absurd heq (by simp)
  · rename_i heq; rw [h] at heq; exact absurd heq (by simp)
  · rename_i s2 rest2 heq
    rw [h] at heq
    simp only [Option.some.injEq, Prod.mk.injEq] at heq
    obtain ⟨hs, hr⟩ := heq
    rw [hs, hr]

theorem packerCollect_cons_zero (rest : List Nat) :
    packerCollect (0 :: rest) = (packerCollect rest).map (fun ss => [] :: ss) :=
  packerCollect_step (stringPackerNext_cons_zero rest)

theorem packerCollect_cons_pos {a : Nat} (ha : a ≠ 0) (l : List Nat) :
    packerCollect (a :: l) =
      match packerCollect l with
      | some (x :: xs) => some ((a :: x) :: xs)
      | _ => none := by
  cases hn : stringPackerNext l with
  | none =>
    have h2 : stringPackerNext (a :: l) = none := by
      rw [stringPackerNext_cons_pos ha, hn]
    rw [packerCollect_panic h2, packerCollect_panic hn]
  | some o =>
    cases o with
    | none =>
      have hl : l = [] := stringPackerNext_done_iff.mp hn
      subst hl
      have h2 : stringPackerNext (a :: ([] : List Nat)) = none := by
        rw [stringPackerNext_cons_pos ha, stringPackerNext_nil]
      rw [packerCollect_panic h2, packerCollect_nil]
    | some p =>
      obtain ⟨s, rest⟩ := p
      have h2 : stringPackerNext (a :: l) = some (some (a :: s, rest)) := by
        rw [stringPackerNext_cons_pos ha, hn]
      rw [packerCollect_step h2, packerCollect_step hn]
      cases hc : packerCollect rest <;> simp

theorem packerCollect_eq_byteCollect (l : List Nat) :
    packerCollect l = byteCollect l := by
  induction l with
  | nil => rw [packerCollect_nil]; rfl
  | cons a rest ih =>
    cases a with
    | zero => rw [packerCollect_cons_zero, ih]; rfl
    | succ b => rw [packerCollect_cons_pos (Nat.succ_ne_zero b), ih]; rfl

theorem splitSegs_ne_nil (l : List Nat) : splitSegs l ≠ [] := by
  cases l with
  | nil => simp [splitSegs]
  | cons a rest =>
    cases a with
    | zero => simp [splitSegs]
    | succ b =>
      unfold splitSegs
      cases h : splitSegs rest <;> simp

theorem splitSegs_of_not_mem {s : List Nat} (h : 0 ∉ s) : splitSegs s = [s] := by
  induction s with
  | nil => rfl
  | cons a s2 ih =>
    have ha : a ≠ 0 := by intro hc; exact h (hc ▸ List.mem_cons_self a s2)
    have h2 : (0 : Nat) ∉ s2 := fun hc => h (List.mem_cons_of_mem a hc)
    cases a with
    | zero => exact absurd rfl ha
    | succ b => unfold splitSegs; rw [ih h2]

theorem from_strings_data (rows : List (Option Str)) :
    (StringPacker.from_strings rows).data = packData rows := by
  have key : ∀ (rows : List (Option Str)) (sp : StringPacker),
      (rows.foldl (fun (sp : StringPacker) o => sp.push (o.getD [])) sp).data
        = sp.data ++ packData rows := by
    intro rows
    induction rows with
    | nil => intro sp; simp [packData]
    | cons o rest ih =>
      intro sp
      simp only [List.foldl_cons]
      rw [ih]
      simp [packData, StringPacker.push]
  have h2 := key rows StringPacker.new
  simpa [StringPacker.from_strings, StringPacker.new] using h2

theorem byteCollect_cons_zero (rest : List Nat) :
    byteCollect (0 :: rest) = (byteCollect rest).map (fun ss => [] :: ss) := rfl

theorem byteCollect_cons_pos (b : Nat) (rest : List Nat) :
    byteCollect ((b+1) :: rest) =
      match byteCollect rest with
      | some (x :: xs) => some (((b+1) :: x) :: xs)
      | _ => none := rfl

theorem byteCollect_seg (s tail : List Nat) :
    byteCollect (s ++ 0 :: tail) =
      (byteCollect tail).map (fun r => splitSegs s ++ r) := by
  induction s with
  | nil => simp [byteCollect_cons_zero, splitSegs]
  | cons a s2 ih =>
    cases a with
    | zero =>
      rw [List.cons_append, byteCollect_cons_zero, ih]
      show _ = (byteCollect tail).map (fun r => ([] :: splitSegs s2) ++ r)
      cases byteCollect tail <;> simp
    | succ b =>
      rw [List.cons_append, byteCollect_cons_pos, ih]
      obtain ⟨x, xs, hx⟩ : ∃ x xs, splitSegs s2 = x :: xs := by
        cases h : splitSegs s2 with
        | nil => exact absurd h (splitSegs_ne_nil s2)
        | cons x xs => exact ⟨x, xs, rfl⟩
      show _ = (byteCollect tail).map (fun r => splitSegs ((b+1) :: s2) ++ r)
      rw [show splitSegs ((b+1) :: s2) = ((b+1) :: x) :: xs by
        unfold splitSegs; rw [hx]]
      cases byteCollect tail with
      | none => simp
      | some r => rw [hx]; simp

theorem packerCollect_packData (rows : List (Option Str)) :
    packerCollect (packData rows) =
      some ((rows.map (fun o => splitSegs (o.getD []))).flatten) := by
  rw [packerCollect_eq_byteCollect]
  induction rows with
  | nil => rfl
  | cons o rest ih =>
    show byteCollect ((o.getD []) ++ 0 :: packData rest) = _
    rw [byteCollect_seg, ih]
    simp

theorem packerCollect_done {remaining : List Nat}
    (h : stringPackerNext remaining = some none) :
    packerCollect remaining = some [] := by
  rw [packerCollect]
  split
  · rename_i heq; rw [h] at heq; exact absurd heq (by simp)
  · rfl
  · rename_i heq; rw [h] at heq; exact absurd heq (by simp)

theorem packerCollect_eq_nil_inv {l : List Nat}
    (h : packerCollect l = some []) : stringPackerNext l = some none := by
  cases hn : stringPackerNext l with
  | none => rw [packerCollect_panic hn] at h; exact absurd h (by simp)
  | some o =>
    cases o with
    | none => rfl
    | some p =>
      obtain ⟨s, rest⟩ := p
      rw [packerCollect_step hn] at h
      cases hc : packerCollect rest with
      | none => rw [hc] at h; simp at h
      | some ds => rw [hc] at h; simp at h

theorem packerCollect_cons_inv {l : List Nat} {s : Str} {ds2 : List Str}
    (h : packerCollect l = some (s :: ds2)) :
    ∃ rest, stringPackerNext l = some (some (s, rest)) ∧
      packerCollect rest = some ds2 := by
  cases hn : stringPackerNext l with
  | none => rw [packerCollect_panic hn] at h; exact absurd h (by simp)
  | some o =>
    cases o with
    | none => rw [packerCollect_done hn] at h; simp at h
    | some p =>
      obtain ⟨s2, rest⟩ := p
      rw [packerCollect_step hn] at h
      cases hc : packerCollect rest with
      | none => rw [hc] at h; simp at h
      | some ds =>
        rw [hc] at h
        simp at h
        obtain ⟨hs2, hds⟩ := h
        subst hs2
        subst hds
        exact ⟨rest, rfl, hc⟩


theorem maskFilter_nil_left {α : Type} (mask : List Bool) :
    maskFilter ([] : List α) mask = [] := by cases mask <;> rfl

theorem maskFilter_nil_right {α : Type} (xs : List α) :
    maskFilter xs [] = [] := by cases xs <;> rfl

theorem maskFilter_cons {α : Type} (x : α) (xs : List α) (b : Bool)
    (bs : List Bool) :
    maskFilter (x :: xs) (b :: bs) =
      if b then x :: maskFilter xs bs else maskFilter xs bs := rfl

theorem maskSubseq_eq_maskFilter {α : Type} (xs : List α) (mask : List Bool) :
    maskSubseq xs mask = maskFilter xs mask := by
  induction xs generalizing mask with
  | nil => simp [maskSubseq, maskFilter_nil_left]
  | cons x xs ih =>
    cases mask with
    | nil => simp [maskSubseq, maskFilter_nil_right]
    | cons b bs =>
      rw [maskFilter_cons, ← ih bs]
      cases b <;> simp [maskSubseq]

theorem maskFilter_length {α : Type} {xs : List α} {mask : List Bool}
    (h : mask.length ≤ xs.length) :
    (maskFilter xs mask).length = mask.count true := by
  induction mask generalizing xs with
  | nil => simp [maskFilter_nil_right]
  | cons b bs ih =>
    cases xs with
    | nil => simp at h
    | cons x xs2 =>
      rw [maskFilter_cons]
      simp only [List.length_cons] at h
      have h2 : bs.length ≤ xs2.length := by omega
      cases b with
      | false => rw [if_neg (by simp), ih h2]; simp [List.count_cons]
      | true => rw [if_pos rfl]; simp [List.count_cons, ih h2]

theorem packerFilter_of_collect {l : List Nat} {ds : List Str}
    (h : packerCollect l = some ds) (mask : List Bool) :
    packerFilter l mask = some (maskFilter ds mask) := by
  induction ds generalizing l mask with
  | nil => rw [packerFilter_done (packerCollect_eq_nil_inv h), maskFilter_nil_left]
  | cons s ds2 ih =>
    obtain ⟨rest, hn, hc⟩ := packerCollect_cons_inv h
    rw [packerFilter_step hn mask]
    cases mask with
    | nil => rw [maskFilter_nil_right]
    | cons b ms =>
      show (packerFilter rest ms).map (fun r => if b then s :: r else r) = _
      rw [ih hc ms, maskFilter_cons]
      cases b <;> simp

theorem idxOf_some_get {v : Option Str} {l : List (Option Str)} {i : Nat}
    (h : idxOf v l = some i) : l[i]? = some v := by
  induction l generalizing i with
  | nil => simp [idxOf] at h
  | cons a as ih =>
    by_cases ha : a = v
    · rw [idxOf, if_pos ha] at h
      obtain rfl : (0 : Nat) = i := by simpa using h
      simpa using ha
    · rw [idxOf, if_neg ha] at h
      cases hj : idxOf v as with
      | none => rw [hj] at h; simp at h
      | some j =>
        rw [hj] at h
        obtain rfl : j + 1 = i := by simpa using h
        simpa using ih hj

theorem idxOf_mem {v : Option Str} {l : List (Option Str)} (h : v ∈ l) :
    ∃ i, idxOf v l = some i ∧ l[i]? = some v := by
  induction l with
  | nil => simp at h
  | cons a as ih =>
    by_cases ha : a = v
    · exact ⟨0, by rw [idxOf, if_pos ha], by simpa using ha⟩
    · have hmem : v ∈ as := by
        cases List.mem_cons.mp h with
        | inl h2 => exact absurd h2.symm ha
        | inr h2 => exact h2
      obtain ⟨i, h1, h2⟩ := ih hmem
      exact ⟨i + 1, by rw [idxOf, if_neg ha, h1]; rfl, by simpa using h2⟩

theorem idxOf_lt_length {v : Option Str} {l : List (Option Str)} {i : Nat}
    (h : idxOf v l = some i) : i < l.length := by
  have h2 := idxOf_some_get h
  by_contra hge
  rw [List.getElem?_eq_none (by omega)] at h2
  exact absurd h2 (by simp)

theorem optionMapList_nil {α β : Type} (f : α → Option β) :
    optionMapList f [] = some [] := rfl

theorem optionMapList_some_of_forall {α β : Type} {f : α → Option β}
    {l : List α} (h : ∀ a ∈ l, ∃ b, f a = some b) :
    ∃ bs, optionMapList f l = some bs ∧ bs.length = l.length := by
  induction l with
  | nil => exact ⟨[], rfl, rfl⟩
  | cons a as ih =>
    obtain ⟨b, hb⟩ := h a (List.mem_cons_self a as)
    obtain ⟨bs, hbs, hlen⟩ := ih (fun x hx => h x (List.mem_cons_of_mem a hx))
    refine ⟨b :: bs, ?_, by simp [hlen]⟩
    rw [optionMapList, hb, hbs]

theorem optionMapList_none_of_mem {α β : Type} {f : α → Option β} {l : List α}
    {a : α} (ha : a ∈ l) (h : f a = none) : optionMapList f l = none := by
  induction l with
  | nil => simp at ha
  | cons x xs ih =>
    rw [optionMapList]
    cases List.mem_cons.mp ha with
    | inl h2 => subst h2; rw [h]
    | inr h2 =>
      rw [ih h2]
      cases f x <;> rfl

theorem optionMapList_length {α β : Type} {f : α → Option β} {l : List α}
    {bs : List β} (h : optionMapList f l = some bs) : bs.length = l.length := by
  induction l generalizing bs with
  | nil => simp [optionMapList] at h; simp [← h]
  | cons a as ih =>
    rw [optionMapList] at h
    cases hb : f a with
    | none => rw [hb] at h; simp at h
    | some b =>
      cases hbs : optionMapList f as with
      | none => rw [hb, hbs] at h; simp at h
      | some bs2 =>
        rw [hb, hbs] at h
        obtain rfl : b :: bs2 = bs := by simpa using h
        simp [ih hbs]

theorem optionMapList_get {α β : Type} {f : α → Option β} {l : List α}
    {bs : List β} (h : optionMapList f l = some bs) {k : Nat} {a : α}
    (hk : l[k]? = some a) : ∃ b, bs[k]? = some b ∧ f a = some b := by
  induction l generalizing bs k with
  | nil => simp at hk
  | cons x xs ih =>
    rw [optionMapList] at h
    cases hb : f x with
    | none => rw [hb] at h; simp at h
    | some b =>
      cases hbs : optionMapList f xs with
      | none => rw [hb, hbs] at h; simp at h
      | some bs2 =>
        rw [hb, hbs] at h
        obtain rfl : b :: bs2 = bs := by simpa using h
        cases k with
        | zero =>
          obtain rfl : x = a := by simpa using hk
          exact ⟨b, by simp, hb⟩
        | succ k2 =>
          simp only [List.getElem?_cons_succ] at hk
          obtain ⟨b2, h1, h2⟩ := ih hbs hk
          exact ⟨b2, by simpa using h1, h2⟩


theorem dict_from_strings_some {strings uniqueList : List (Option Str)}
    (hlen : uniqueList.length ≤ u16MAX)
    (hmem : ∀ v ∈ strings, v ∈ uniqueList) :
    ∃ enc, optionMapList (fun o => idxOf o uniqueList) strings = some enc ∧
      DictEncodedStrings.from_strings strings uniqueList =
        some ⟨uniqueList, enc⟩ := by
  obtain ⟨enc, henc, -⟩ := optionMapList_some_of_forall
    (f := fun o => idxOf o uniqueList) (l := strings)
    (fun v hv => by
      obtain ⟨i, h1, -⟩ := idxOf_mem (hmem v hv)
      exact ⟨i, h1⟩)
  refine ⟨enc, henc, ?_⟩
  rw [DictEncodedStrings.from_strings, if_pos hlen, henc]

theorem dict_from_strings_none_of_big {strings uniqueList : List (Option Str)}
    (h : u16MAX < uniqueList.length) :
    DictEncodedStrings.from_strings strings uniqueList = none := by
  rw [DictEncodedStrings.from_strings, if_neg (by omega)]

theorem dict_from_strings_inv {strings uniqueList : List (Option Str)}
    {d : DictEncodedStrings}
    (h : DictEncodedStrings.from_strings strings uniqueList = some d) :
    d.mapping = uniqueList ∧
      optionMapList (fun o => idxOf o uniqueList) strings
        = some d.encoded_values ∧
      uniqueList.length ≤ u16MAX := by
  rw [DictEncodedStrings.from_strings] at h
  by_cases hlen : uniqueList.length ≤ u16MAX
  · rw [if_pos hlen] at h
    cases henc : optionMapList (fun o => idxOf o uniqueList) strings with
    | none => rw [henc] at h; simp at h
    | some enc =>
      rw [henc] at h
      obtain rfl : ({ mapping := uniqueList, encoded_values := enc } :
          DictEncodedStrings) = d := by simpa using h
      exact ⟨rfl, rfl, hlen⟩
  · rw [if_neg hlen] at h
    simp at h

theorem dictFilterDecodeGo_eq {d : DictEncodedStrings} (is : List Nat)
    (bs : List Bool) :
    dictFilterDecodeGo d is bs =
      optionMapList (fun i => d.lookupEntry i) (maskFilter is bs) := by
  induction is generalizing bs with
  | nil => rw [maskFilter_nil_left]; cases bs <;> rfl
  | cons i is2 ih =>
    cases bs with
    | nil => rfl
    | cons b bs2 =>
      rw [maskFilter_cons]
      cases b with
      | false =>
        rw [if_neg (by simp)]
        show dictFilterDecodeGo d is2 bs2 = _
        exact ih bs2
      | true =>
        rw [if_pos rfl]
        show (match d.lookupEntry i, dictFilterDecodeGo d is2 bs2 with
          | some s, some r => some (s :: r)
          | _, _ => none) = _
        rw [ih bs2]
        cases hli : d.lookupEntry i <;>
          cases hol : optionMapList (fun j => d.lookupEntry j)
            (maskFilter is2 bs2) <;>
          simp [optionMapList, hli, hol]

theorem dict_decode_filter_encoded (d : DictEncodedStrings) (mask : List Bool) :
    d.decode (d.filter_encoded mask) = d.filter_decode mask := by
  rw [DictEncodedStrings.decode, DictEncodedStrings.filter_encoded,
    DictEncodedStrings.filter_decode, dictFilterDecodeGo_eq]

theorem dict_filter_decode_of_collect {d : DictEncodedStrings} {ds : List Str}
    (h : d.collect_decoded = some ds) (mask : List Bool) :
    d.filter_decode mask = some (maskFilter ds mask) := by
  rw [DictEncodedStrings.collect_decoded, DictEncodedStrings.decode] at h
  rw [DictEncodedStrings.filter_decode, dictFilterDecodeGo_eq]
  -- reduce to: mapM over a mask-filtered list, given mapM over the whole list
  have key : ∀ (is : List Nat) (ds : List Str) (bs : List Bool),
      optionMapList (fun i => d.lookupEntry i) is = some ds →
      optionMapList (fun i => d.lookupEntry i) (maskFilter is bs)
        = some (maskFilter ds bs) := by
    intro is
    induction is with
    | nil =>
      intro ds bs h2
      obtain rfl : ([] : List Str) = ds := by simpa [optionMapList] using h2
      rw [maskFilter_nil_left, maskFilter_nil_left, optionMapList_nil]
    | cons i is2 ih =>
      intro ds bs h2
      rw [optionMapList] at h2
      cases hb : d.lookupEntry i with
      | none => rw [hb] at h2; simp at h2
      | some s =>
        cases hbs : optionMapList (fun i => d.lookupEntry i) is2 with
        | none => rw [hb, hbs] at h2; simp at h2
        | some ds2 =>
          rw [hb, hbs] at h2
          obtain rfl : s :: ds2 = ds := by simpa using h2
          cases bs with
          | nil => rw [maskFilter_nil_right, maskFilter_nil_right, optionMapList_nil]
          | cons b bs2 =>
            rw [maskFilter_cons, maskFilter_cons]
            cases b with
            | false => rw [if_neg (by simp), if_neg (by simp)]; exact ih ds2 bs2 hbs
            | true =>
              rw [if_pos rfl, if_pos rfl, optionMapList, hb, ih ds2 bs2 hbs]
  exact key d.encoded_values ds mask h

theorem packData_endsZero (rows : List (Option Str)) :
    bufferEndsZero (packData rows) := by
  induction rows with
  | nil => exact Or.inl rfl
  | cons o rest ih =>
    right
    cases ih with
    | inl h0 =>
      refine ⟨o.getD [], ?_⟩
      rw [packData, h0]
    | inr hr =>
      obtain ⟨l2, hl2⟩ := hr
      refine ⟨o.getD [] ++ 0 :: l2, ?_⟩
      rw [packData, hl2]
      simp

theorem dropWhile_append_single_zero (l : List Nat) :
    ∃ m, (l ++ [0]).dropWhile nonTerm = m ++ [0] := by
  induction l with
  | nil => exact ⟨[], by simp [List.dropWhile_cons, nonTerm_zero]⟩
  | cons a l2 ih =>
    cases a with
    | zero =>
      exact ⟨0 :: l2, by simp [List.dropWhile_cons, nonTerm_zero]⟩
    | succ b =>
      obtain ⟨m, hm⟩ := ih
      refine ⟨m, ?_⟩
      rw [List.cons_append, List.dropWhile_cons]
      rw [nonTerm_pos (Nat.succ_ne_zero b)]
      simpa using hm

theorem next_endsZero {data : List Nat} (h : bufferEndsZero data) :
    stringPackerNext data ≠ none ∧
      ∀ s rest, stringPackerNext data = some (some (s, rest)) →
        bufferEndsZero rest := by
  cases h with
  | inl h0 =>
    subst h0
    exact ⟨by rw [stringPackerNext_nil]; simp, fun s rest h2 => by
      rw [stringPackerNext_nil] at h2; simp at h2⟩
  | inr hr =>
    obtain ⟨l, rfl⟩ := hr
    obtain ⟨m, hm⟩ := dropWhile_append_single_zero l
    have hne : l ++ [0] ≠ [] := by simp
    constructor
    · intro hcon
      rw [stringPackerNext.eq_def] at hcon
      revert hcon
      cases hmat : l ++ [0] with
      | nil => exact absurd hmat hne
      | cons c cs =>
        rw [hmat] at hm
        rw [hm]
        cases m <;> simp
    · intro s rest h2
      rw [stringPackerNext.eq_def] at h2
      revert h2
      cases hmat : l ++ [0] with
      | nil => exact absurd hmat hne
      | cons c cs =>
        rw [hmat] at hm
        rw [hm]
        cases m with
        | nil =>
          intro h2
          simp only [List.nil_append, Option.some.injEq, Prod.mk.injEq] at h2
          obtain ⟨-, hr2⟩ := h2
          exact Or.inl hr2.symm
        | cons z m2 =>
          intro h2
          simp only [List.cons_append, Option.some.injEq, Prod.mk.injEq] at h2
          obtain ⟨-, hr2⟩ := h2
          exact Or.inr ⟨m2, hr2.symm⟩

theorem packerCollect_some_of_endsZero (data : List Nat)
    (h : bufferEndsZero data) : ∃ ds, packerCollect data = some ds := by
  generalize hlen : data.length = n
  induction n using Nat.strong_induction_on generalizing data with
  | _ n ih =>
    obtain ⟨hne, hpres⟩ := next_endsZero h
    cases hn : stringPackerNext data with
    | none => exact absurd hn hne
    | some o =>
      cases o with
      | none => exact ⟨[], packerCollect_done hn⟩
      | some p =>
        obtain ⟨s, rest⟩ := p
        have hlt : rest.length < n := by
          rw [← hlen]
          exact stringPackerNext_rest_length hn
        obtain ⟨ds2, hds⟩ := ih rest.length hlt rest (hpres s rest hn) rfl
        exact ⟨s :: ds2, by rw [packerCollect_step hn, hds]; rfl⟩

theorem flatten_segs_length (rows : List (Option Str)) :
    rows.length ≤ ((rows.map (fun o => splitSegs (o.getD []))).flatten).length := by
  induction rows with
  | nil => simp
  | cons o rest ih =>
    simp only [List.map_cons, List.flatten_cons, List.length_append,
      List.length_cons]
    have h1 : 1 ≤ (splitSegs (o.getD [])).length := by
      cases hs : splitSegs (o.getD []) with
      | nil => exact absurd hs (splitSegs_ne_nil _)
      | cons x xs => simp
    omega

theorem optionMapList_mem_origin {α β : Type} {f : α → Option β} {l : List α}
    {bs : List β} (h : optionMapList f l = some bs) {b : β} (hb : b ∈ bs) :
    ∃ a ∈ l, f a = some b := by
  induction l generalizing bs with
  | nil =>
    obtain rfl : ([] : List β) = bs := by simpa [optionMapList] using h
    simp at hb
  | cons x xs ih =>
    rw [optionMapList] at h
    cases hx : f x with
    | none => rw [hx] at h; simp at h
    | some b2 =>
      cases hxs : optionMapList f xs with
      | none => rw [hx, hxs] at h; simp at h
      | some bs2 =>
        rw [hx, hxs] at h
        obtain rfl : b2 :: bs2 = bs := by simpa using h
        cases List.mem_cons.mp hb with
        | inl h2 => exact ⟨x, List.mem_cons_self x xs, h2 ▸ hx⟩
        | inr h2 =>
          obtain ⟨a, ha, hfa⟩ := ih hxs h2
          exact ⟨a, List.mem_cons_of_mem x ha, hfa⟩

theorem maskFilter_subset {α : Type} {xs : List α} {bs : List Bool} {x : α}
    (h : x ∈ maskFilter xs bs) : x ∈ xs := by
  induction xs generalizing bs with
  | nil => rw [maskFilter_nil_left] at h; simp at h
  | cons y ys ih =>
    cases bs with
    | nil => rw [maskFilter_nil_right] at h; simp at h
    | cons b bs2 =>
      rw [maskFilter_cons] at h
      cases b with
      | false =>
        rw [if_neg (by simp)] at h
        exact List.mem_cons_of_mem y (ih h)
      | true =>
        rw [if_pos rfl] at h
        cases List.mem_cons.mp h with
        | inl h2 => exact h2 ▸ List.mem_cons_self y ys
        | inr h2 => exact List.mem_cons_of_mem y (ih h2)

theorem maskFilter_mem_of_get {α : Type} {xs : List α} {bs : List Bool}
    {k : Nat} {x : α} (hx : xs[k]? = some x) (hb : bs[k]? = some true) :
    x ∈ maskFilter xs bs := by
  induction k generalizing xs bs with
  | zero =>
    cases xs with
    | nil => simp at hx
    | cons y ys =>
      cases bs with
      | nil => simp at hb
      | cons b bs2 =>
        obtain rfl : y = x := by simpa using hx
        obtain rfl : b = true := by simpa using hb
        rw [maskFilter_cons, if_pos rfl]
        exact List.mem_cons_self _ _
  | succ k2 ih =>
    cases xs with
    | nil => simp at hx
    | cons y ys =>
      cases bs with
      | nil => simp at hb
      | cons b bs2 =>
        simp only [List.getElem?_cons_succ] at hx hb
        have h2 := ih hx hb
        rw [maskFilter_cons]
        cases b with
        | false => rw [if_neg (by simp)]; exact h2
        | true => rw [if_pos rfl]; exact List.mem_cons_of_mem y h2

theorem dict_decode_roundtrip {uniq : List (Option Str)} :
    ∀ (ss : List Str) (enc : List Nat),
      optionMapList (fun o => idxOf o uniq) (ss.map some) = some enc →
      ∀ d : DictEncodedStrings, d.mapping = uniq →
        optionMapList (fun i => d.lookupEntry i) enc = some ss := by
  intro ss
  induction ss with
  | nil =>
    intro enc henc d hd
    obtain rfl : ([] : List Nat) = enc := by simpa [optionMapList] using henc
    exact optionMapList_nil _
  | cons s ss2 ih =>
    intro enc henc d hd
    rw [List.map_cons, optionMapList] at henc
    cases hi : idxOf (some s) uniq with
    | none => rw [hi] at henc; simp at henc
    | some i =>
      cases hrec : optionMapList (fun o => idxOf o uniq) (ss2.map some) with
      | none => rw [hi, hrec] at henc; simp at henc
      | some enc2 =>
        rw [hi, hrec] at henc
        obtain rfl : i :: enc2 = enc := by simpa using henc
        have hlook : d.lookupEntry i = some s := by
          rw [DictEncodedStrings.lookupEntry, hd, idxOf_some_get hi]
        rw [optionMapList, hlook, ih enc2 hrec d hd]

theorem StringPacker.eq_of_data {sp1 sp2 : StringPacker}
    (h : sp1.data = sp2.data) : sp1 = sp2 := by
  cases sp1; cases sp2; simpa using h

theorem packData_collapse (rows : List (Option Str)) :
    packData rows = packData (rows.map (fun o => some (o.getD []))) := by
  induction rows with
  | nil => rfl
  | cons o rest ih =>
    rw [List.map_cons, packData, packData, ih]
    rfl

/-- Claim C9 (implicit, iterator bounds and termination): every buffer
produced by `StringPacker::from_strings` is empty or ends with the zero
terminator; on any such buffer the terminator scan in
`StringPackerIterator::next` never runs out of bounds (`next` never panics),
`next` yields `None` exactly when the buffer suffix is exhausted, each step
preserves the invariant, and the full (always terminating) iteration
succeeds. -/
theorem c9_iterator_safe :
    (∀ rows : List (Option Str),
      bufferEndsZero (StringPacker.from_strings rows).data) ∧
    (∀ data : List Nat, bufferEndsZero data →
      stringPackerNext data ≠ none ∧
      (stringPackerNext data = some none ↔ data = []) ∧
      (∀ s rest, stringPackerNext data = some (some (s, rest)) →
        bufferEndsZero rest) ∧
      ∃ ds, packerCollect data = some ds) := by
  constructor
  · intro rows
    rw [from_strings_data]
    exact packData_endsZero rows
  · intro data h
    obtain ⟨hne, hpres⟩ := next_endsZero h
    exact ⟨hne, stringPackerNext_done_iff, hpres,
      packerCollect_some_of_endsZero data h⟩

/-- Witness for C9 at a concrete buffer: the invariant holds for `[0]`
(a packed single empty string) and the guarantees follow. -/
theorem c9_witness :
    bufferEndsZero [0] ∧
    (stringPackerNext [0] ≠ none ∧
      (stringPackerNext [0] = some none ↔ ([0] : List Nat) = []) ∧
      (∀ s rest, stringPackerNext [0] = some (some (s, rest)) →
        bufferEndsZero rest) ∧
      ∃ ds, packerCollect [0] = some ds) :=
  ⟨Or.inr ⟨[], rfl⟩, c9_iterator_safe.2 [0] (Or.inr ⟨[], rfl⟩)⟩

/-- Claim C4 counterexample: a unique-value set of size exactly 65536
(distinct two-byte strings, no duplicates) is within the claim's stated
bound of "at most 65536", yet `DictEncodedStrings::from_strings` rejects it
(the `assert!` uses `u16::MAX as usize = 65535`). -/
theorem c4_counterexample :
    ((List.range 65536).map
        (fun n => some ([n / 256, n % 256] : Str))).Nodup ∧
    ((List.range 65536).map
        (fun n => some ([n / 256, n % 256] : Str))).length ≤ 65536 ∧
    DictEncodedStrings.from_strings []
      ((List.range 65536).map (fun n => some ([n / 256, n % 256] : Str)))
      = none := by
  refine ⟨?_, ?_, ?_⟩
  · refine (List.nodup_range 65536).map ?_
    intro a b hab
    simp only [Option.some.injEq, List.cons.injEq] at hab
    obtain ⟨h1, h2, -⟩ := hab
    omega
  · simp
  · exact dict_from_strings_none_of_big (by simp [u16MAX])

/-- Claim C4, amended: the `assert!` bound is `u16::MAX as usize = 65535`,
not 65536 — `from_strings` accepts every unique-value set of size at most
65535 (whenever every row value occurs in the set), keeping the entire set
as the dictionary (no truncation), and it panics on every set of size
greater than 65535. -/
theorem c4_dict_bound :
    (∀ strings uniqueList : List (Option Str),
      uniqueList.length ≤ 65535 →
      (∀ v ∈ strings, v ∈ uniqueList) →
      ∃ d, DictEncodedStrings.from_strings strings uniqueList = some d ∧
        d.mapping = uniqueList) ∧
    (∀ strings uniqueList : List (Option Str),
      65535 < uniqueList.length →
      DictEncodedStrings.from_strings strings uniqueList = none) := by
  constructor
  · intro strings uniqueList hlen hmem
    obtain ⟨enc, -, hsome⟩ := dict_from_strings_some hlen hmem
    exact ⟨⟨uniqueList, enc⟩, hsome, rfl⟩
  · intro strings uniqueList hlen
    exact dict_from_strings_none_of_big hlen

/-- Witness for C4 (amended) at concrete inputs: a one-entry set is
accepted untruncated; a 65536-entry set is rejected. -/
theorem c4_witness :
    (∃ d, DictEncodedStrings.from_strings [some [97]] [some [97]] = some d ∧
      d.mapping = [some [97]]) ∧
    DictEncodedStrings.from_strings [] (List.replicate 65536 none) = none :=
  ⟨c4_dict_bound.1 [some [97]] [some [97]] (by decide) (by decide),
   c4_dict_bound.2 [] (List.replicate 65536 none)
     (by simp only [List.length_replicate]; omega)⟩

/-- Claim C5 (encoded-access consistency): for a dictionary column, decoding
the raw index array exposed by `get_encoded` through the `PointCodec` decode
authority equals `collect_decoded`, and decoding the index array produced by
`filter_encoded(mask)` equals `filter_decode(mask)`, for masks of matching
length. -/
theorem c5_encoded_access (rows uniqueList : List (Option Str))
    (d : DictEncodedStrings) (mask : List Bool)
    (hbuild : DictEncodedStrings.from_strings rows uniqueList = some d)
    (hmask : mask.length = rows.length) :
    d.decode d.get_encoded = d.collect_decoded ∧
    d.decode (d.filter_encoded mask) = d.filter_decode mask :=
  ⟨rfl, dict_decode_filter_encoded d mask⟩

/-- Witness for C5 at a concrete column (rows `["a", "b", "a"]`, mask
`[true, false, true]`). -/
theorem c5_witness :
    (DictEncodedStrings.mk [some [97], some [98]] [0, 1, 0]).decode
        (DictEncodedStrings.mk [some [97], some [98]] [0, 1, 0]).get_encoded
      = (DictEncodedStrings.mk [some [97], some [98]] [0, 1, 0]).collect_decoded ∧
    (DictEncodedStrings.mk [some [97], some [98]] [0, 1, 0]).decode
        ((DictEncodedStrings.mk [some [97], some [98]] [0, 1, 0]).filter_encoded
          [true, false, true])
      = (DictEncodedStrings.mk [some [97], some [98]] [0, 1, 0]).filter_decode
          [true, false, true] :=
  c5_encoded_access [some [97], some [98], some [97]] [some [97], some [98]]
    (DictEncodedStrings.mk [some [97], some [98]] [0, 1, 0])
    [true, false, true] (by decide) (by decide)

/-- Claim C3 (encoding choice): under the contract of the upstream
cardinality analysis (spec-modelled, since `UniqueValues` is outside this
snapshot), `build_string_column` is total (never panics), returns a
dictionary column exactly when the analysis kept a bounded unique-value set,
and a raw-packed column exactly when it did not; being a pure function of
its two arguments, the decision is deterministic. -/
theorem c3_encoding_choice (values : List (Option Str)) (u : UniqueValues)
    (hwf : u.wellFormed values) :
    (∃ c, build_string_column values u = some c) ∧
    ((∃ d, build_string_column values u = some (StringColumn.dict d)) ↔
      ∃ l, u.get_values = some l) ∧
    ((∃ p, build_string_column values u = some (StringColumn.packed p)) ↔
      u.get_values = none) := by
  cases hv : u.values with
  | none =>
    have hb : build_string_column values u =
        some (StringColumn.packed (StringPacker.from_strings values)) := by
      rw [build_string_column, UniqueValues.get_values, hv]
    refine ⟨⟨_, hb⟩, ?_, ?_⟩
    · constructor
      · intro hd
        obtain ⟨d, hd⟩ := hd
        rw [hb] at hd
        simp at hd
      · intro hl
        obtain ⟨l, hl⟩ := hl
        rw [UniqueValues.get_values, hv] at hl
        simp at hl
    · constructor
      · intro _
        rw [UniqueValues.get_values, hv]
      · intro _
        exact ⟨_, hb⟩
  | some l =>
    obtain ⟨hlen, hmem⟩ := hwf l hv
    have hlen2 : l.length ≤ u16MAX := by
      have : MAX_UNIQUE_STRINGS ≤ u16MAX := by decide
      omega
    obtain ⟨enc, -, hsome⟩ := dict_from_strings_some hlen2 hmem
    have hb : build_string_column values u =
        some (StringColumn.dict ⟨l, enc⟩) := by
      rw [build_string_column, UniqueValues.get_values, hv]
      show (match DictEncodedStrings.from_strings values l with
        | some d => some (StringColumn.dict d)
        | none => none) = _
      rw [hsome]
    refine ⟨⟨_, hb⟩, ?_, ?_⟩
    · constructor
      · intro _
        exact ⟨l, by rw [UniqueValues.get_values, hv]⟩
      · intro _
        exact ⟨_, hb⟩
    · constructor
      · intro hp
        obtain ⟨p, hp⟩ := hp
        rw [hb] at hp
        simp at hp
      · intro hn
        rw [UniqueValues.get_values, hv] at hn
        simp at hn

/-- Witness for C3 at concrete inputs: an analysis reporting
`{"a"}` leads to a dictionary column; an analysis reporting no bounded set
leads to a raw-packed column. -/
theorem c3_witness :
    ((∃ c, build_string_column [some [97]] ⟨some [some [97]]⟩ = some c) ∧
      ((∃ d, build_string_column [some [97]] ⟨some [some [97]]⟩
          = some (StringColumn.dict d)) ↔
        ∃ l, UniqueValues.get_values ⟨some [some [97]]⟩ = some l) ∧
      ((∃ p, build_string_column [some [97]] ⟨some [some [97]]⟩
          = some (StringColumn.packed p)) ↔
        UniqueValues.get_values ⟨some [some [97]]⟩ = none)) ∧
    ((∃ c, build_string_column [some [97]] ⟨none⟩ = some c) ∧
      ((∃ d, build_string_column [some [97]] ⟨none⟩
          = some (StringColumn.dict d)) ↔
        ∃ l, UniqueValues.get_values ⟨none⟩ = some l) ∧
      ((∃ p, build_string_column [some [97]] ⟨none⟩
          = some (StringColumn.packed p)) ↔
        UniqueValues.get_values ⟨none⟩ = none)) :=
  ⟨c3_encoding_choice [some [97]] ⟨some [some [97]]⟩
      (fun l hl => by
        have hl2 : l = [some [97]] := (Option.some.inj hl).symm
        subst hl2
        exact ⟨by decide, by decide⟩),
   c3_encoding_choice [some [97]] ⟨none⟩
      (fun l hl => by simp at hl)⟩

/-- Claim C8 (index validity invariant): when the unique-value set contains
every row value (and fits the 16-bit bound so construction succeeds), the
built column permanently satisfies that every encoded value is a valid
position in the dictionary — strictly below `mapping.length`, with the
dictionary access `mapping[i]` defined — so the accesses in `decode`,
`filter_decode`, `collect_decoded` and `to_raw` on those indices are in
bounds. -/
theorem c8_index_validity (rows uniqueList : List (Option Str))
    (hmem : ∀ v ∈ rows, v ∈ uniqueList)
    (hlen : uniqueList.length ≤ u16MAX) :
    ∃ d, DictEncodedStrings.from_strings rows uniqueList = some d ∧
      ∀ i ∈ d.encoded_values,
        i < d.mapping.length ∧ (d.mapping[i]?).isSome := by
  obtain ⟨enc, henc, hsome⟩ := dict_from_strings_some hlen hmem
  refine ⟨⟨uniqueList, enc⟩, hsome, ?_⟩
  intro i hi
  obtain ⟨a, -, ha⟩ := optionMapList_mem_origin henc hi
  constructor
  · exact idxOf_lt_length ha
  · rw [idxOf_some_get ha]
    rfl

/-- Witness for C8 at a concrete column (rows `["b", "a", "b"]`, set
`{"a", "b"}`). -/
theorem c8_witness :
    ∃ d, DictEncodedStrings.from_strings [some [98], some [97], some [98]]
        [some [97], some [98]] = some d ∧
      ∀ i ∈ d.encoded_values,
        i < d.mapping.length ∧ (d.mapping[i]?).isSome :=
  c8_index_validity [some [98], some [97], some [98]] [some [97], some [98]]
    (by decide) (by decide)

theorem flatten_singletons {α : Type} (l : List α) :
    (l.map (fun x => [x])).flatten = l := by
  induction l with
  | nil => rfl
  | cons x xs ih => simp [ih]

/-- Claim C1 counterexample: the one-row sequence whose single row is the
non-null one-byte string `"\x00"` does not round trip through the raw
packer — the interior 0 byte is read back as a terminator, so
`collect_decoded` returns two empty strings instead of the original row. -/
theorem c1_counterexample :
    (StringPacker.from_strings [some [0]]).collect_decoded = some [[], []] ∧
    (StringPacker.from_strings [some [0]]).collect_decoded ≠ some [[0]] := by
  have h : (StringPacker.from_strings [some [0]]).collect_decoded
      = some [[], []] := by
    rw [StringPacker.collect_decoded, from_strings_data, packerCollect_packData]
    rfl
  refine ⟨h, ?_⟩
  rw [h]
  simp

/-- Claim C1, amended (round trip): `collect_decoded` returns the original
non-null row sequence in order for the raw packer whenever no row string
contains the 0 terminator byte (an interior NUL breaks the round trip, as
the counterexample shows), and for the dictionary encoding whenever the
unique-value set contains every row value and fits the 16-bit bound, so
construction succeeds. -/
theorem c1_round_trip :
    (∀ ss : List Str, (∀ s ∈ ss, (0 : Nat) ∉ s) →
      (StringPacker.from_strings (ss.map some)).collect_decoded = some ss) ∧
    (∀ (ss : List Str) (uniqueList : List (Option Str)),
      uniqueList.length ≤ u16MAX →
      (∀ s ∈ ss, some s ∈ uniqueList) →
      ∃ d, DictEncodedStrings.from_strings (ss.map some) uniqueList = some d ∧
        d.collect_decoded = some ss) := by
  constructor
  · intro ss h
    rw [StringPacker.collect_decoded, from_strings_data, packerCollect_packData]
    have key : (ss.map some).map (fun o => splitSegs (o.getD []))
        = ss.map (fun s => [s]) := by
      rw [List.map_map]
      apply List.map_congr_left
      intro s hs
      simp [splitSegs_of_not_mem (h s hs)]
    rw [key, flatten_singletons]
  · intro ss uniqueList hlen hmem
    have hmem2 : ∀ v ∈ ss.map some, v ∈ uniqueList := by
      intro v hv
      obtain ⟨s, hs, rfl⟩ := List.mem_map.mp hv
      exact hmem s hs
    obtain ⟨enc, henc, hsome⟩ := dict_from_strings_some hlen hmem2
    refine ⟨⟨uniqueList, enc⟩, hsome, ?_⟩
    rw [DictEncodedStrings.collect_decoded, DictEncodedStrings.decode]
    exact dict_decode_roundtrip ss enc henc _ rfl

/-- Witness for C1 (amended) at concrete inputs: rows `["a", "b"]` round
trip through the raw packer, and rows `["a"]` with unique set `{"a"}` round
trip through the dictionary encoding. -/
theorem c1_witness :
    (StringPacker.from_strings [some [97], some [98]]).collect_decoded
      = some [[97], [98]] ∧
    ∃ d, DictEncodedStrings.from_strings [some [97]] [some [97]] = some d ∧
      d.collect_decoded = some [[97]] :=
  ⟨c1_round_trip.1 [[97], [98]] (by decide),
   c1_round_trip.2 [[97]] [some [97]] (by decide) (by decide)⟩

/-- Claim C6 (null collapse in the raw packer): a null row is pushed as the
same byte segment as an empty-string row — `from_strings` produces an
identical packer when every null row is replaced by an empty string — and
decoding a built column returns `""` both for rows that were null and for
rows that were the empty string (stated for columns whose non-null strings
are 0-free, so that decode is positionally faithful). -/
theorem c6_null_collapse :
    (∀ rows : List (Option Str),
      StringPacker.from_strings rows =
        StringPacker.from_strings (rows.map (fun o => some (o.getD [])))) ∧
    (∀ rows : List (Option Str),
      (∀ s : Str, some s ∈ rows → (0 : Nat) ∉ s) →
      (StringPacker.from_strings rows).collect_decoded =
        some (rows.map (fun o => o.getD []))) := by
  constructor
  · intro rows
    apply StringPacker.eq_of_data
    rw [from_strings_data, from_strings_data]
    exact packData_collapse rows
  · intro rows h
    rw [StringPacker.collect_decoded, from_strings_data, packerCollect_packData]
    have key : rows.map (fun o => splitSegs (o.getD []))
        = (rows.map (fun o => o.getD [])).map (fun s => [s]) := by
      rw [List.map_map]
      apply List.map_congr_left
      intro o ho
      cases o with
      | none => rfl
      | some s =>
        simp only [Option.getD_some, Function.comp]
        exact splitSegs_of_not_mem (h s ho)
    rw [key, flatten_singletons]

/-- Witness for C6 at a concrete column: rows `[null, ""]` decode to
`["", ""]`, making the null row and the empty-string row indistinguishable. -/
theorem c6_witness :
    (StringPacker.from_strings [none, some []]).collect_decoded
      = some [[], []] :=
  c6_null_collapse.2 [none, some []]
    (fun s hs => by
      have h2 : s = [] := by simpa using hs
      simp [h2])

/-- Claim C2 (filter correctness): for a built column of either encoding and
a mask whose length equals the row count, `filter_decode(mask)` returns
exactly the subsequence of `collect_decoded()` at the set-bit positions, in
order, with length equal to the number of set bits.  (For the dictionary
encoding this is stated for columns whose full decode is defined — a null
dictionary entry makes both sides panic, which claim C10 settles.) -/
theorem c2_filter_correct :
    (∀ (rows : List (Option Str)) (mask : List Bool),
      mask.length = rows.length →
      ∃ ds, (StringPacker.from_strings rows).collect_decoded = some ds ∧
        (StringPacker.from_strings rows).filter_decode mask
          = some (maskSubseq ds mask) ∧
        (maskSubseq ds mask).length = mask.count true) ∧
    (∀ (rows uniqueList : List (Option Str)) (d : DictEncodedStrings)
        (ds : List Str) (mask : List Bool),
      DictEncodedStrings.from_strings rows uniqueList = some d →
      d.collect_decoded = some ds →
      mask.length = rows.length →
      d.filter_decode mask = some (maskSubseq ds mask) ∧
        (maskSubseq ds mask).length = mask.count true) := by
  constructor
  · intro rows mask hmask
    have hc : (StringPacker.from_strings rows).collect_decoded
        = some ((rows.map (fun o => splitSegs (o.getD []))).flatten) := by
      rw [StringPacker.collect_decoded, from_strings_data,
        packerCollect_packData]
    refine ⟨_, hc, ?_, ?_⟩
    · rw [StringPacker.filter_decode, maskSubseq_eq_maskFilter,
        from_strings_data]
      rw [StringPacker.collect_decoded, from_strings_data] at hc
      exact packerFilter_of_collect hc mask
    · rw [maskSubseq_eq_maskFilter]
      apply maskFilter_length
      rw [hmask]
      exact flatten_segs_length rows
  · intro rows uniqueList d ds mask hbuild hdec hmask
    refine ⟨?_, ?_⟩
    · rw [maskSubseq_eq_maskFilter]
      exact dict_filter_decode_of_collect hdec mask
    · rw [maskSubseq_eq_maskFilter]
      apply maskFilter_length
      obtain ⟨-, henc, -⟩ := dict_from_strings_inv hbuild
      have h1 : d.encoded_values.length = rows.length :=
        optionMapList_length henc
      have h2 : ds.length = d.encoded_values.length := by
        rw [DictEncodedStrings.collect_decoded, DictEncodedStrings.decode]
          at hdec
        exact optionMapList_length hdec
      omega

/-- Witness for C2 at concrete columns: rows `["a", "b"]` with mask
`[true, false]` for the raw packer, and rows `["a", "b"]`, set `{"a", "b"}`,
mask `[false, true]` for the dictionary encoding. -/
theorem c2_witness :
    (∃ ds, (StringPacker.from_strings [some [97], some [98]]).collect_decoded
        = some ds ∧
      (StringPacker.from_strings [some [97], some [98]]).filter_decode
          [true, false] = some (maskSubseq ds [true, false]) ∧
      (maskSubseq ds [true, false]).length = [true, false].count true) ∧
    ((DictEncodedStrings.mk [some [97], some [98]] [0, 1]).filter_decode
        [false, true]
      = some (maskSubseq [[97], [98]] [false, true]) ∧
      (maskSubseq ([[97], [98]] : List Str) [false, true]).length
        = [false, true].count true) :=
  ⟨c2_filter_correct.1 [some [97], some [98]] [true, false] rfl,
   c2_filter_correct.2 [some [97], some [98]] [some [97], some [98]]
     (DictEncodedStrings.mk [some [97], some [98]] [0, 1]) [[97], [98]]
     [false, true] (by decide) (by decide) rfl⟩

/-- Claim C7 counterexample: a built two-row packer column filtered with a
one-bit mask (a row count / mask length mismatch) does not abort — it
returns the truncated result `["a"]`. -/
theorem c7_counterexample :
    ([true] : List Bool).length ≠
      ([some [97], some [98]] : List (Option Str)).length ∧
    (StringPacker.from_strings [some [97], some [98]]).filter_decode [true]
      = some [[97]] := by
  refine ⟨by decide, ?_⟩
  have hc : packerCollect (StringPacker.from_strings
      [some [97], some [98]]).data = some [[97], [98]] := by
    rw [from_strings_data, packerCollect_packData]
    rfl
  rw [StringPacker.filter_decode, packerFilter_of_collect hc [true]]
  rfl

/-- Claim C7, amended: a mask whose length differs from the row count is not
detected and does not abort — both encodings zip the value sequence with the
mask and silently stop at the shorter side, returning the subsequence of
`collect_decoded()` at the set-bit positions of the mask (and
`filter_encoded` behaves the same on the index array).  This holds for every
mask length, matching or not. -/
theorem c7_mask_mismatch :
    (∀ (rows : List (Option Str)) (mask : List Bool),
      ∃ ds, (StringPacker.from_strings rows).collect_decoded = some ds ∧
        (StringPacker.from_strings rows).filter_decode mask
          = some (maskSubseq ds mask)) ∧
    (∀ (d : DictEncodedStrings) (ds : List Str) (mask : List Bool),
      d.collect_decoded = some ds →
      d.filter_decode mask = some (maskSubseq ds mask)) ∧
    (∀ (d : DictEncodedStrings) (mask : List Bool),
      d.filter_encoded mask = maskSubseq d.encoded_values mask) := by
  refine ⟨?_, ?_, ?_⟩
  · intro rows mask
    have hc : (StringPacker.from_strings rows).collect_decoded
        = some ((rows.map (fun o => splitSegs (o.getD []))).flatten) := by
      rw [StringPacker.collect_decoded, from_strings_data,
        packerCollect_packData]
    refine ⟨_, hc, ?_⟩
    rw [StringPacker.filter_decode, maskSubseq_eq_maskFilter,
      from_strings_data]
    rw [StringPacker.collect_decoded, from_strings_data] at hc
    exact packerFilter_of_collect hc mask
  · intro d ds mask hdec
    rw [maskSubseq_eq_maskFilter]
    exact dict_filter_decode_of_collect hdec mask
  · intro d mask
    rw [maskSubseq_eq_maskFilter]
    rfl

/-- Witness for C7 (amended) at a concrete dictionary column with a
too-short mask. -/
theorem c7_witness :
    (DictEncodedStrings.mk [some [97], some [98]] [0, 1]).filter_decode [true]
      = some (maskSubseq [[97], [98]] [true]) :=
  c7_mask_mismatch.2.1 (DictEncodedStrings.mk [some [97], some [98]] [0, 1])
    [[97], [98]] [true] (by decide)

/-- Claim C10 (implicit, null rows make dictionary decode panic): if the
unique-value set has no null entry, every dictionary access in a
successfully built column unwraps a present entry, so `collect_decoded`,
`filter_decode` (any mask) and `to_raw` (any held index) all return values;
conversely, if some row is null, its encoded index points at a `None`
dictionary entry, and `collect_decoded`, `filter_decode` with a mask
selecting that row, and `to_raw` on that row's index all panic. -/
theorem c10_null_unwrap :
    (∀ (rows uniqueList : List (Option Str)) (d : DictEncodedStrings),
      (∀ o ∈ uniqueList, o ≠ none) →
      DictEncodedStrings.from_strings rows uniqueList = some d →
      (∃ ds, d.collect_decoded = some ds) ∧
      (∀ mask : List Bool, ∃ r, d.filter_decode mask = some r) ∧
      (∀ i ∈ d.encoded_values, ∃ v, d.to_raw i = some v)) ∧
    (∀ (rows uniqueList : List (Option Str)) (d : DictEncodedStrings)
        (k : Nat),
      DictEncodedStrings.from_strings rows uniqueList = some d →
      rows[k]? = some none →
      d.collect_decoded = none ∧
      (∀ mask : List Bool, mask[k]? = some true →
        d.filter_decode mask = none) ∧
      (∃ i, d.encoded_values[k]? = some i ∧ d.to_raw i = none)) := by
  constructor
  · intro rows uniqueList d hnn hbuild
    obtain ⟨hmap, henc, -⟩ := dict_from_strings_inv hbuild
    have hall : ∀ i ∈ d.encoded_values, ∃ v, d.lookupEntry i = some v := by
      intro i hi
      obtain ⟨a, -, hfa⟩ := optionMapList_mem_origin henc hi
      have hget := idxOf_some_get hfa
      have hmem : a ∈ uniqueList := List.getElem?_mem hget
      cases a with
      | none => exact absurd rfl (hnn none hmem)
      | some s =>
        exact ⟨s, by rw [DictEncodedStrings.lookupEntry, hmap, hget]⟩
    refine ⟨?_, ?_, fun i hi => hall i hi⟩
    · rw [DictEncodedStrings.collect_decoded, DictEncodedStrings.decode]
      obtain ⟨ds, hds, -⟩ := optionMapList_some_of_forall hall
      exact ⟨ds, hds⟩
    · intro mask
      rw [DictEncodedStrings.filter_decode, dictFilterDecodeGo_eq]
      obtain ⟨r, hr, -⟩ := optionMapList_some_of_forall
        (fun i hi => hall i (maskFilter_subset hi))
      exact ⟨r, hr⟩
  · intro rows uniqueList d k hbuild hk
    obtain ⟨hmap, henc, -⟩ := dict_from_strings_inv hbuild
    obtain ⟨i, hik, hfa⟩ := optionMapList_get henc hk
    have hget := idxOf_some_get hfa
    have hlook : d.lookupEntry i = none := by
      rw [DictEncodedStrings.lookupEntry, hmap, hget]
    have himem : i ∈ d.encoded_values := List.getElem?_mem hik
    refine ⟨?_, ?_, i, hik, hlook⟩
    · rw [DictEncodedStrings.collect_decoded, DictEncodedStrings.decode]
      exact optionMapList_none_of_mem himem hlook
    · intro mask hm
      rw [DictEncodedStrings.filter_decode, dictFilterDecodeGo_eq]
      exact optionMapList_none_of_mem (maskFilter_mem_of_get hik hm) hlook


/-- Witness for C10 at concrete columns: rows `["a"]` with set `{"a"}`
decode everywhere; rows `[null]` with set `{null}` panic in
`collect_decoded`, in `filter_decode [true]`, and in `to_raw` on row 0's
index. -/
theorem c10_witness :
    ((∃ ds, (DictEncodedStrings.mk [some [97]] [0]).collect_decoded
        = some ds) ∧
      (∀ mask : List Bool, ∃ r,
        (DictEncodedStrings.mk [some [97]] [0]).filter_decode mask
          = some r) ∧
      (∀ i ∈ (DictEncodedStrings.mk [some [97]] [0]).encoded_values,
        ∃ v, (DictEncodedStrings.mk [some [97]] [0]).to_raw i = some v)) ∧
    ((DictEncodedStrings.mk [none] [0]).collect_decoded = none ∧
      (∀ mask : List Bool, mask[0]? = some true →
        (DictEncodedStrings.mk [none] [0]).filter_decode mask = none) ∧
      (∃ i, (DictEncodedStrings.mk [none] [0]).encoded_values[0]? = some i ∧
        (DictEncodedStrings.mk [none] [0]).to_raw i = none)) :=
  ⟨c10_null_unwrap.1 [some [97]] [some [97]]
      (DictEncodedStrings.mk [some [97]] [0]) (by decide) (by decide),
   c10_null_unwrap.2 [none] [none] (DictEncodedStrings.mk [none] [0]) 0
      (by decide) rfl⟩

end LocustDB
